import Mathlib

/-!
Verification of the editorconfig-core-c core engines against their
natural-language specification.

The development shallowly embeds the two source files:

* `src/lib/ini.c`   — the line-oriented configuration parser (`ini_parse_file`),
  and the file-content cache driver (`ini_parse` / `ini_data_for_file`);
* `src/lib/ec_glob.c` — the glob-to-PCRE translator and match-time
  number-range validation (`ec_glob`).

Strings are modelled as `List Char`.  C's in-place pointer walks become
explicit recursions; every fixed-size buffer is modelled by an explicit
write-position counter mirroring the C pointer arithmetic.  Loops whose
progress is not structurally evident are given an explicit fuel argument
(always instantiated with a bound that dominates the loop measure), so that
every definition evaluates by kernel reduction.

The PCRE2 engine itself is not part of the repository; it is modelled from
the spec ("an executable representation equivalent to a regular expression
over byte strings") by a small regex AST, a parser covering exactly the
syntax the translator emits, and a backtracking matcher with capturing
groups (leftmost, greedy, alternation tried left to right — PCRE's
documented behavior for the emitted constructs).
-/

set_option maxRecDepth 20000

/-- Character classified as whitespace by C `isspace` in the C locale:
space (0x20) and 0x09–0x0D. -/
def isSpc (c : Char) : Bool :=
  c.toNat = 32 || (9 ≤ c.toNat && c.toNat ≤ 13)

/-- Character classified as alphanumeric by C `isalnum` in the C locale. -/
def isAlnumC (c : Char) : Bool :=
  (decide ('0' ≤ c) && decide (c ≤ '9')) ||
  (decide ('a' ≤ c) && decide (c ≤ 'z')) ||
  (decide ('A' ≤ c) && decide (c ≤ 'Z'))

/-- Character classified as a decimal digit. -/
def isDig (c : Char) : Bool :=
  decide ('0' ≤ c) && decide (c ≤ '9')

/-- Shorthand turning a string literal into the `List Char` the model uses. -/
def toL (s : String) : List Char := s.toList

/-! ## `ini.c`: helpers (`rstrip`, `lskip`, `find_char_or_comment`,
`find_last_char_or_comment`) -/

/-- `rstrip` from ini.c: strip whitespace characters off the end of a string. -/
def rstrip (s : List Char) : List Char :=
  (s.reverse.dropWhile isSpc).reverse

/-- `lskip` from ini.c: skip over leading whitespace. -/
def lskip (s : List Char) : List Char :=
  s.dropWhile isSpc

/-- `find_char_or_comment` from ini.c: split the string at the first
occurrence of `c` or of a `;`/`#` that is preceded by a whitespace character
(the `wasWs` argument is the `was_whitespace` loop state).  Returns the
scanned prefix and the rest starting at the stopping position (empty if the
scan ran off the end). -/
def find_char_or_comment (c : Char) : Bool → List Char → List Char × List Char
  | _, [] => ([], [])
  | wasWs, x :: r =>
    if x = c then ([], x :: r)
    else if wasWs && (x = ';' || x = '#') then ([], x :: r)
    else
      let p := find_char_or_comment c (isSpc x) r
      (x :: p.1, p.2)

/-- `find_last_char_or_comment` from ini.c: split at the last occurrence of
`c` before a whitespace-prefixed `;`/`#` comment or the end of the string;
`none` when no such occurrence exists (in the C code the returned pointer
then does not point at `c`). -/
def find_last_char_or_comment (c : Char) : Bool → List Char → Option (List Char × List Char)
  | _, [] => none
  | wasWs, x :: r =>
    if wasWs && (x = ';' || x = '#') then none
    else
      match find_last_char_or_comment c (isSpc x) r with
      | some p => some (x :: p.1, p.2)
      | none => if x = c then some ([], x :: r) else none

/-! ## `ini.c`: `ini_parse_file` -/

/-- Build-time length limits from `global.h` (not part of the two source
files under scrutiny); the parser is parametrized by them.  They correspond
to `MAX_SECTION_NAME`, `MAX_PROPERTY_NAME` and `MAX_PROPERTY_VALUE`. -/
structure IniLimits where
  maxSection : Nat
  maxName : Nat
  maxValue : Nat
deriving DecidableEq, Repr

/-- A `(section, name, value)` triple delivered to the handler. -/
abbrev IniEvent := List Char × List Char × List Char

/-- A handler: receives a triple, returns whether it accepted it
(the C handler's nonzero return). -/
abbrev IniHandler := List Char → List Char → List Char → Bool

/-- The parser state that survives from one line to the next:
the `section[]` and `prev_name[]` buffers of `ini_parse_file`. -/
structure IniSP where
  sec : List Char
  prev : List Char
deriving DecidableEq, Repr

/-- One iteration of the `ini_parse_file` line loop, after the raw line has
been extracted (and truncated to `MAX_LINE - 1 = 4999` characters by
`snprintf`).  Returns the new section/prev state, the handler invocations
made on this line, whether an error condition occurred on this line (handler
rejection or syntax error — the loop records the first such line number),
and whether the loop advances `p` past this line.  The last component is
`false` exactly in the two `continue` branches (oversized section name,
oversized name/value), which in the C code skip the `p = nextLine + 1`
advance. -/
def ini_process_line (lim : IniLimits) (ml : Bool) (handler : IniHandler)
    (sp : IniSP) (rawLine : List Char) : IniSP × List IniEvent × Bool × Bool :=
  let line := rawLine.take 4999
  let stripped := lskip (rstrip line)
  match stripped with
  | [] => (sp, [], false, true)
  | c :: s1 =>
    if c = ';' || c = '#' then
      -- comment line
      (sp, [], false, true)
    else if ml && !sp.prev.isEmpty &&
        (match (rstrip line).head? with | some c0 => isSpc c0 | none => false) then
      -- non-blank line with leading whitespace: continuation of previous value
      (sp, [(sp.sec, sp.prev, stripped)], !(handler sp.sec sp.prev stripped), true)
    else if c = '[' then
      -- a "[section]" line
      match find_last_char_or_comment ']' false s1 with
      | some (name, _) =>
        if lim.maxSection < name.length then
          -- section name too long: skipped via `continue`, which never
          -- advances `p`
          (sp, [], false, false)
        else
          ({ sec := name, prev := [] }, [], false, true)
      | none =>
        -- no ']' found on section line
        (sp, [], true, true)
    else if !stripped.isEmpty && (c ≠ ';' || c = '#') then
      -- not a comment, must be a name[=:]value pair
      let p1 := find_char_or_comment '=' false stripped
      let sepSplit :=
        match p1.2 with
        | '=' :: rest => some (p1.1, rest)
        | _ =>
          match (find_char_or_comment ':' false stripped).2 with
          | ':' :: rest => some ((find_char_or_comment ':' false stripped).1, rest)
          | _ => none
      match sepSplit with
      | some (lhs, rhs) =>
        let name := rstrip lhs
        let value0 := lskip rhs
        let value := rstrip (find_char_or_comment '\x00' false value0).1
        if lim.maxName < name.length || lim.maxValue < value.length then
          -- name or value too long: skipped via `continue`, which never
          -- advances `p`
          (sp, [], false, false)
        else
          ({ sp with prev := name }, [(sp.sec, name, value)],
            !(handler sp.sec name value), true)
      | none =>
        -- no '=' or ':' found on name[=:]value line
        (sp, [], true, true)
    else
      (sp, [], false, true)

/-- Split a text at its first newline: the first line and, when a newline
was found, the remaining text after it. -/
def splitNl : List Char → List Char × Option (List Char)
  | [] => ([], none)
  | c :: r =>
    if c = '\n' then ([], some r)
    else
      let p := splitNl r
      (c :: p.1, p.2)

/-- The line loop of `ini_parse_file`.  `error` and `lineno` are the loop
variables of the C code; the fuel argument bounds the number of iterations
(the entry point passes `text.length + 1`, which dominates the iteration
count whenever every iteration advances).  A `none` result means the loop
ran for the whole fuel without returning — on the `continue` branches the C
loop never advances `p` and loops forever, which this model exhibits as
`none` for every fuel. -/
def ini_parse_lines (lim : IniLimits) (ml : Bool) (handler : IniHandler) :
    Nat → IniSP → Nat → Nat → List Char → Option (List IniEvent × Nat)
  | 0, _, _, _, _ => none
  | _ + 1, _, error, _, [] => some ([], error)
  | fuel + 1, sp, error, lineno, p =>
    let sn := splitNl p
    let res := ini_process_line lim ml handler sp sn.1
    let error2 := if error = 0 && res.2.2.1 then lineno + 1 else error
    if res.2.2.2 then
      match sn.2 with
      | none => some (res.2.1, error2)
      | some rest =>
        (ini_parse_lines lim ml handler fuel res.1 error2 (lineno + 1) rest).map
          (fun pr => (res.2.1 ++ pr.1, pr.2))
    else
      (ini_parse_lines lim ml handler fuel res.1 error2 (lineno + 1) p).map
        (fun pr => (res.2.1 ++ pr.1, pr.2))

/-- `ini_parse_file` from ini.c: scan the zero-terminated text line by line,
delivering `(section, name, value)` triples to the handler; the result is
the list of handler invocations together with the parser's return value
(first offending line number, or 0 on success).  `ml` is the
`INI_ALLOW_MULTILINE` build flag (its definition lives in `ini.h`, outside
the two source files).  `none` models non-termination of the C loop. -/
def ini_parse_file (lim : IniLimits) (ml : Bool) (handler : IniHandler)
    (text : List Char) : Option (List IniEvent × Nat) :=
  ini_parse_lines lim ml handler (text.length + 1) ⟨[], []⟩ 0 0 text

/-! ## `ini.c`: file content cache and `ini_parse` -/

/-- The file-content cache of `ini_data_for_file`: filename to file bytes.
(The C map stores a `CacheEntry` with the watch handles; only the cached
bytes are observable by `ini_parse`.) -/
abbrev IniCache := List (List Char × List Char)

/-- Cache lookup (the fetch direction of `ini_data_for_file`). -/
def ini_cache_fetch (cache : IniCache) (filename : List Char) : Option (List Char) :=
  (cache.find? (fun e => e.1 = filename)).map (fun e => e.2)

/-- `ini_parse` from ini.c, with the filesystem abstracted as a partial map
`disk` from filename to contents and the process-wide cache passed
explicitly.  Returns the parse result, the handler invocations, the cache
after the call, and how many times the file was read from disk
(`ini_data_from_file` calls).  The data is inserted into the cache only when
`ini_parse_file` returned 0 and the data did not come from the cache.
`none` models non-termination of `ini_parse_file`. -/
def ini_parse (lim : IniLimits) (ml : Bool) (handler : IniHandler)
    (disk : List Char → Option (List Char)) (cache : IniCache)
    (filename : List Char) : Option (Int × List IniEvent × IniCache × Nat) :=
  match ini_cache_fetch cache filename with
  | some data =>
    (ini_parse_file lim ml handler data).map
      (fun pr => ((pr.2 : Int), pr.1, cache, 0))
  | none =>
    match disk filename with
    | none => some (-1, [], cache, 1)
    | some data =>
      (ini_parse_file lim ml handler data).map
        (fun pr =>
          if pr.2 = 0 then ((0 : Int), pr.1, (filename, data) :: cache, 1)
          else ((pr.2 : Int), pr.1, cache, 1))

/-! ## `ec_glob.c`: the glob-to-PCRE translator -/

/-- `PATTERN_MAX` from ec_glob.c. -/
def PATTERN_MAX : Nat := 4097

/-- Capacity of the `pcre_str` buffer (`char pcre_str[2 * PATTERN_MAX]`). -/
def pcreCap : Nat := 2 * PATTERN_MAX

/-- `EC_GLOB_NOMATCH` — defined in `ec_glob.h`, which is not among the two
source files; modelled from the spec as a result code distinct from success
(0) and from the error codes (-1, -2). -/
def EC_GLOB_NOMATCH : Int := 1

/-- The state of the translation: the appends performed so far (most recent
first), the write position of `p_pcre` inside the fixed buffer (starting at
1, just past the initial caret), whether some append has written past the
end of the buffer, and the `nums` array of number ranges. -/
structure TransSt where
  emitsRev : List (List Char)
  used : Nat
  ov : Bool
  nums : List (Int × Int)
deriving DecidableEq, Repr

/-- An append through the `STRING_CAT` macro: fails with -1 when
`p + string_len >= end`, i.e. the concatenation (with its terminating NUL)
would not fit. -/
def checkedCat (s : List Char) (st : TransSt) : Except Int TransSt :=
  if pcreCap ≤ st.used + s.length then .error (-1)
  else .ok { st with emitsRev := s :: st.emitsRev, used := st.used + s.length }

/-- An append performed by direct `*(p_pcre++) = c` writes or raw
`strcat`/`strncat` calls, with no bounds check: the overflow flag is set
when a written character lands at an index `≥ 2 * PATTERN_MAX`. -/
def rawPut (s : List Char) (st : TransSt) : TransSt :=
  { emitsRev := s :: st.emitsRev
    used := st.used + s.length
    ov := st.ov || decide (pcreCap < st.used + s.length)
    nums := st.nums }

/-- The brace-pairing prescan of `ec_glob` (lines 203–228): count unescaped
`{` and `}`; the braces are paired when no prefix has an excess of `}` and
the total counts agree. -/
def bracesPairedLoop : Int → Int → List Char → Bool
  | l, r, [] => decide (l = r)
  | l, r, c :: rest =>
    if c = '\\' then
      match rest with
      | [] => decide (l = r)
      | _ :: rest2 => bracesPairedLoop l r rest2
    else
      let l2 := if c = '{' then l + 1 else l
      let r2 := if c = '}' then r + 1 else r
      if l2 < r2 then false else bracesPairedLoop l2 r2 rest

/-- Whether the pattern's curly braces are paired (`are_braces_paired`). -/
def are_braces_paired (p : List Char) : Bool := bracesPairedLoop 0 0 p

/-- The `{single}` scan (lines 348–364): starting after a `{`, look for the
closing `}`, skipping escaped characters.  Returns `is_single` (false when
an unescaped comma intervenes or the string ends first), the content
between the braces, and the rest after the `}`. -/
def scanSingle : List Char → Bool × List Char × List Char
  | [] => (false, [], [])
  | '}' :: rest => (true, [], rest)
  | '\\' :: x :: rest =>
    let p := scanSingle rest
    (p.1, '\\' :: x :: p.2.1, p.2.2)
  | ',' :: _ => (false, [], [])
  | c :: rest =>
    let p := scanSingle rest
    (p.1, c :: p.2.1, p.2.2)

/-- Drop one leading `+` or `-` sign. -/
def stripSign : List Char → List Char
  | '+' :: r => r
  | '-' :: r => r
  | r => r

/-- Whether the span `{content}` matches the number pattern
`^\{[\+\-]?\d+\.\.[\+\-]?\d+\}$` (`kNumberPattern`, compiled once by
`ec_glob_number_pattern`; the PCRE match is modelled directly). -/
def ec_glob_number_match (content : List Char) : Bool :=
  let s1 := stripSign content
  let d1 := s1.takeWhile isDig
  let r1 := s1.dropWhile isDig
  if d1.isEmpty then false
  else
    match r1 with
    | '.' :: '.' :: r2 =>
      let s2 := stripSign r2
      (!(s2.takeWhile isDig).isEmpty) && (s2.dropWhile isDig).isEmpty
    | _ => false

/-- The text after the first occurrence of `".."` (models
`strstr(c, "..") + 2`; only used when the number pattern matched, so the
occurrence exists). -/
def afterDots : List Char → List Char
  | '.' :: '.' :: r => r
  | _ :: r => afterDots r
  | [] => []

/-- `ec_atoi` (from util.h, not among the two source files) — modelled as C
`atoi`: skip leading whitespace, an optional sign, then the leading run of
digits (0 when there are none).  Overflow is not modelled. -/
def ec_atoi (s : List Char) : Int :=
  let s1 := s.dropWhile isSpc
  let digits (l : List Char) : Int :=
    (l.takeWhile isDig).foldl (fun a c => a * 10 + ((c.toNat : Int) - 48)) 0
  match s1 with
  | '-' :: r => -(digits r)
  | '+' :: r => digits r
  | r => digits r

/-- The slash scan inside a bracket expression (lines 272–287): whether an
unescaped `/` occurs before the first unescaped `]` (scanning from the `[`
itself). -/
def hasSlashScan : List Char → Bool
  | [] => false
  | ']' :: _ => false
  | '\\' :: _ :: rest => hasSlashScan rest
  | '/' :: _ => true
  | _ :: rest => hasSlashScan rest

/-- `strchr` for a single character: the part before the first occurrence
(escaped or not), the part after it, and whether it was found (when not,
the first part is the whole string). -/
def splitAtChar (ch : Char) : List Char → List Char × List Char × Bool
  | [] => ([], [], false)
  | c :: r =>
    if c = ch then ([], r, true)
    else
      let p := splitAtChar ch r
      (c :: p.1, p.2.1, p.2.2)

/-- The translation loop of `ec_glob` (lines 236–444), one arm per
`switch` case, operating on the remaining text of `l_pattern`; the C
branches that look ahead at the following characters (`\\X`, `**`, `[!`,
`/**/`) appear as longer top-level patterns.  The `memmove` of the
`{single}` escape case, which inserts a backslash before the closing `}`
inside `l_pattern` and resumes after the `{`, is modelled by recursing on
`content ++ '\\' :: '}' :: rest`.  The fuel argument dominates the loop
measure `2·|rem| + #braces(rem) + 1`, which every branch strictly
decreases, so with the entry fuel the 0 case is unreachable (it returns
the error `-3`, a code the C function never produces). -/
def ec_glob_trans (paired : Bool) :
    Nat → Bool → Int → List Char → TransSt → Except Int TransSt
  | 0, _, _, _, _ => .error (-3)
  | _ + 1, _, _, [], st => .ok (rawPut ['$'] st)
  | fuel + 1, inBr, bl, '\\' :: x :: rest2, st =>
    ec_glob_trans paired fuel inBr bl rest2 (rawPut ['\\', x] st)
  | fuel + 1, inBr, bl, ['\\'], st => do
    let st2 ← checkedCat ['\\', '\\'] st
    ec_glob_trans paired fuel inBr bl [] st2
  | fuel + 1, inBr, bl, '?' :: rest, st => do
    let st2 ← checkedCat (toL "[^/]") st
    ec_glob_trans paired fuel inBr bl rest st2
  | fuel + 1, inBr, bl, '*' :: '*' :: rest2, st => do
    let st2 ← checkedCat (toL ".*") st
    ec_glob_trans paired fuel inBr bl rest2 st2
  | fuel + 1, inBr, bl, '*' :: rest, st => do
    let st2 ← checkedCat ['[', '^', '\\', '/', ']', '*'] st
    ec_glob_trans paired fuel inBr bl rest st2
  | fuel + 1, inBr, bl, '[' :: '!' :: rest2, st =>
    if inBr then do
      let st2 ← checkedCat ['\\', '['] st
      ec_glob_trans paired fuel inBr bl ('!' :: rest2) st2
    else if hasSlashScan ('[' :: '!' :: rest2) then
      let sp := splitAtChar ']' ('[' :: '!' :: rest2)
      if sp.2.2 then
        ec_glob_trans paired fuel inBr bl sp.2.1
          (rawPut ('\\' :: sp.1 ++ ['\\', ']']) st)
      else
        ec_glob_trans paired fuel inBr bl [] (rawPut ('\\' :: sp.1) st)
    else do
      let st2 ← checkedCat ['[', '^'] st
      ec_glob_trans paired fuel true bl rest2 st2
  | fuel + 1, inBr, bl, '[' :: rest, st =>
    if inBr then do
      let st2 ← checkedCat ['\\', '['] st
      ec_glob_trans paired fuel inBr bl rest st2
    else if hasSlashScan ('[' :: rest) then
      let sp := splitAtChar ']' ('[' :: rest)
      if sp.2.2 then
        ec_glob_trans paired fuel inBr bl sp.2.1
          (rawPut ('\\' :: sp.1 ++ ['\\', ']']) st)
      else
        ec_glob_trans paired fuel inBr bl [] (rawPut ('\\' :: sp.1) st)
    else
      ec_glob_trans paired fuel true bl rest (rawPut ['['] st)
  | fuel + 1, _, bl, ']' :: rest, st =>
    ec_glob_trans paired fuel false bl rest (rawPut [']'] st)
  | fuel + 1, inBr, bl, '-' :: rest, st =>
    if inBr then ec_glob_trans paired fuel inBr bl rest (rawPut ['-'] st)
    else do
      let st2 ← checkedCat ['\\', '-'] st
      ec_glob_trans paired fuel inBr bl rest st2
  | fuel + 1, inBr, bl, '{' :: rest, st =>
    if !paired then do
      let st2 ← checkedCat ['\\', '{'] st
      ec_glob_trans paired fuel inBr bl rest st2
    else
      let sc := scanSingle rest
      if sc.1 then
        if ec_glob_number_match sc.2.1 then do
          let pair := (ec_atoi sc.2.1, ec_atoi (afterDots sc.2.1))
          let st2 ← checkedCat (toL "([\\+\\-]?\\d+)")
            { st with nums := st.nums ++ [pair] }
          ec_glob_trans paired fuel inBr bl sc.2.2 st2
        else do
          let st2 ← checkedCat ['\\', '{'] st
          ec_glob_trans paired fuel inBr bl (sc.2.1 ++ '\\' :: '}' :: sc.2.2) st2
      else do
        let st2 ← checkedCat ['(', '?', ':'] st
        ec_glob_trans paired fuel inBr (bl + 1) rest st2
  | fuel + 1, inBr, bl, '}' :: rest, st =>
    if !paired then do
      let st2 ← checkedCat ['\\', '}'] st
      ec_glob_trans paired fuel inBr bl rest st2
    else ec_glob_trans paired fuel inBr (bl - 1) rest (rawPut [')'] st)
  | fuel + 1, inBr, bl, ',' :: rest, st =>
    if 0 < bl then ec_glob_trans paired fuel inBr bl rest (rawPut ['|'] st)
    else do
      let st2 ← checkedCat ['\\', ','] st
      ec_glob_trans paired fuel inBr bl rest st2
  | fuel + 1, inBr, bl, '/' :: '*' :: '*' :: '/' :: rest2, st => do
    let st2 ← checkedCat (toL "(\\/|\\/.*\\/)") st
    ec_glob_trans paired fuel inBr bl rest2 st2
  | fuel + 1, inBr, bl, '/' :: rest, st => do
    let st2 ← checkedCat ['\\', '/'] st
    ec_glob_trans paired fuel inBr bl rest st2
  | fuel + 1, inBr, bl, c :: rest, st =>
    ec_glob_trans paired fuel inBr bl rest
      (rawPut (if isAlnumC c then [c] else ['\\', c]) st)

/-- Fuel dominating the translation loop measure. -/
def transFuel (p : List Char) : Nat :=
  2 * p.length + p.countP (fun c => c == '{') + 1

/-- The translation phase of `ec_glob` on a cache miss: the brace prescan
followed by the character loop, starting from `pcre_str = "^"`. -/
def ec_glob_translate (p : List Char) : Except Int TransSt :=
  ec_glob_trans (are_braces_paired p) (transFuel p) false 0 p
    { emitsRev := [], used := 1, ov := false, nums := [] }

/-- The translated PCRE pattern string (the contents of `pcre_str`). -/
def pcre_str (st : TransSt) : List Char :=
  '^' :: st.emitsRev.reverse.flatten

/-! ## The matcher engine

Modelled from the spec: `CompiledMatcher` is "an executable representation
equivalent to a regular expression over byte strings", produced by the
engine's compile step (`pcre2_compile`) and executed by its match step
(`pcre2_match`).  The model below covers exactly the regex dialect the
translator emits: literals, escaped literals, `\d`-style classes, bracket
classes with ranges and negation, `.`, quantifiers `*`/`+`/`?` on
single-character items, non-capturing `(?:...)` and capturing `(...)`
groups, alternation, and the `$` anchor.  Anything else makes the compile
step fail (the spec: "the underlying engine may still reject pathological
inputs"). -/

/-- A character class: a set of inclusive ranges, possibly negated. -/
structure CharClass where
  neg : Bool
  items : List (Char × Char)
deriving DecidableEq, Repr

/-- Whether the class accepts a character. -/
def CharClass.test (cc : CharClass) (c : Char) : Bool :=
  let m := cc.items.any (fun pr => decide (pr.1 ≤ c) && decide (c ≤ pr.2))
  if cc.neg then !m else m

/-- The class holding a single character. -/
def ccSingle (c : Char) : CharClass := ⟨false, [(c, c)]⟩

/-- The class of decimal digits (`\d`). -/
def ccDigit : CharClass := ⟨false, [('0', '9')]⟩

/-- The class of word characters (`\w`). -/
def ccWord : CharClass := ⟨false, [('a', 'z'), ('A', 'Z'), ('0', '9'), ('_', '_')]⟩

/-- The class of whitespace characters (`\s`). -/
def ccSpace : CharClass := ⟨false, [(' ', ' '), ('\x09', '\x0d')]⟩

/-- The class of `.`: any character except newline. -/
def ccAny : CharClass := ⟨true, [('\n', '\n')]⟩

/-- Regular expressions over characters, with numbered capturing groups and
an end-of-subject anchor.  Quantified subexpressions are single-character
classes (all the translator emits). -/
inductive Re where
  | eps : Re
  | sym : CharClass → Re
  | star : CharClass → Re
  | cat : Re → Re → Re
  | alt : Re → Re → Re
  | group : Nat → Re → Re
  | endAnchor : Re
deriving DecidableEq, Repr

/-- Sequencing a list of regexes. -/
def mkSeq (l : List Re) : Re := l.foldr Re.cat Re.eps

/-- The escape classes recognized outside bracket expressions: `\d`, `\D`,
`\w`, `\W`, `\s`, `\S`, and any escaped non-alphanumeric character as a
literal; other alphanumeric escapes are outside the modelled subset. -/
def escClass (c : Char) : Option CharClass :=
  if c = 'd' then some ccDigit
  else if c = 'D' then some ⟨true, ccDigit.items⟩
  else if c = 'w' then some ccWord
  else if c = 'W' then some ⟨true, ccWord.items⟩
  else if c = 's' then some ccSpace
  else if c = 'S' then some ⟨true, ccSpace.items⟩
  else if isAlnumC c then none
  else some (ccSingle c)

/-- One atom inside a bracket expression: a literal character (a possible
range endpoint) or a multi-character escape class. -/
inductive ClassAtom where
  | ch : Char → ClassAtom
  | multi : List (Char × Char) → ClassAtom

/-- Parse one atom inside a bracket expression. -/
def parseClassAtom : List Char → Option (ClassAtom × List Char)
  | [] => none
  | '\\' :: c :: r =>
    if c = 'd' then some (.multi ccDigit.items, r)
    else if c = 'w' then some (.multi ccWord.items, r)
    else if c = 's' then some (.multi ccSpace.items, r)
    else if isAlnumC c then none
    else some (.ch c, r)
  | '\\' :: [] => none
  | c :: r => some (.ch c, r)

/-- Parse the body of a bracket expression after the opening `[` and
optional `^`; `first` is true before any member has been read (PCRE treats
a `]` in that position as a literal member). -/
def parseClassBody (neg : Bool) :
    Nat → Bool → List (Char × Char) → List Char → Option (CharClass × List Char)
  | 0, _, _, _ => none
  | fuel + 1, first, acc, ']' :: rest =>
    if first then parseClassBody neg fuel false (acc ++ [(']', ']')]) rest
    else some (⟨neg, acc⟩, rest)
  | fuel + 1, _, acc, s =>
      match parseClassAtom s with
      | none => none
      | some (.multi items, s2) => parseClassBody neg fuel false (acc ++ items) s2
      | some (.ch c1, s2) =>
        match s2 with
        | '-' :: s3 =>
          match s3 with
          | [] => parseClassBody neg fuel false (acc ++ [(c1, c1)]) s2
          | ']' :: _ => parseClassBody neg fuel false (acc ++ [(c1, c1)]) s2
          | _ =>
            match parseClassAtom s3 with
            | some (.ch c2, s4) =>
              if c1 ≤ c2 then parseClassBody neg fuel false (acc ++ [(c1, c2)]) s4
              else none
            | _ => none
        | _ => parseClassBody neg fuel false (acc ++ [(c1, c1)]) s2

/-- Parse a bracket expression after the opening `[`. -/
def parseClass (fuel : Nat) (s : List Char) : Option (CharClass × List Char) :=
  match s with
  | '^' :: r => parseClassBody true fuel true [] r
  | _ => parseClassBody false fuel true [] s

/-- Attach a postfix quantifier to a single-character item, rejecting lazy
and possessive forms (outside the subset). -/
def withQuant (cc : CharClass) : List Char → Option (Re × List Char)
  | '*' :: r =>
    match r with
    | '*' :: _ => none
    | '+' :: _ => none
    | '?' :: _ => none
    | _ => some (.star cc, r)
  | '+' :: r =>
    match r with
    | '*' :: _ => none
    | '+' :: _ => none
    | '?' :: _ => none
    | _ => some (.cat (.sym cc) (.star cc), r)
  | '?' :: r =>
    match r with
    | '*' :: _ => none
    | '+' :: _ => none
    | '?' :: _ => none
    | _ => some (.alt (.sym cc) .eps, r)
  | r => some (.sym cc, r)

/-- Whether the next character is a postfix quantifier (not allowed after
groups and anchors in the modelled subset). -/
def quantNext : List Char → Bool
  | '*' :: _ => true
  | '+' :: _ => true
  | '?' :: _ => true
  | _ => false

/-- Parser modes: a single atom, a sequence of atoms (up to `|`, `)` or the
end), or a full alternation (up to `)` or the end). -/
inductive PM where
  | atom : PM
  | items : PM
  | alts : PM

/-- The recursive-descent parser for the emitted regex dialect.  `g` is the
number of capturing groups opened so far (PCRE numbers groups by the
position of their opening parenthesis).  Returns the parsed item list (a
singleton in `atom`/`alts` modes), the unconsumed rest, and the updated
group counter. -/
def parseM : Nat → PM → Nat → List Char → Option (List Re × List Char × Nat)
  | 0, _, _, _ => none
  | _ + 1, .items, g, [] => some ([], [], g)
  | fuel + 1, .items, g, s =>
    match s with
    | ')' :: _ => some ([], s, g)
    | '|' :: _ => some ([], s, g)
    | _ =>
      match parseM fuel .atom g s with
      | none => none
      | some (re1, s2, g2) =>
        match parseM fuel .items g2 s2 with
        | none => none
        | some (res, s3, g3) => some (re1 ++ res, s3, g3)
  | fuel + 1, .alts, g, s =>
    match parseM fuel .items g s with
    | none => none
    | some (res, s2, g2) =>
      match s2 with
      | '|' :: r =>
        match parseM fuel .alts g2 r with
        | none => none
        | some ([re2], s3, g3) => some ([.alt (mkSeq res) re2], s3, g3)
        | some _ => none
      | _ => some ([mkSeq res], s2, g2)
  | fuel + 1, .atom, g, s =>
    match s with
    | [] => none
    | ')' :: _ => none
    | '|' :: _ => none
    | '(' :: '?' :: ':' :: r =>
      match parseM fuel .alts g r with
      | some ([re], ')' :: s3, g2) =>
        if quantNext s3 then none else some ([re], s3, g2)
      | _ => none
    | '(' :: r =>
      match parseM fuel .alts (g + 1) r with
      | some ([re], ')' :: s3, g2) =>
        if quantNext s3 then none else some ([.group (g + 1) re], s3, g2)
      | _ => none
    | '[' :: r =>
      match parseClass (r.length + 1) r with
      | none => none
      | some (cc, s2) => (withQuant cc s2).map (fun pr => ([pr.1], pr.2, g))
    | '\\' :: c :: r =>
      match escClass c with
      | none => none
      | some cc => (withQuant cc r).map (fun pr => ([pr.1], pr.2, g))
    | '\\' :: [] => none
    | '.' :: r => (withQuant ccAny r).map (fun pr => ([pr.1], pr.2, g))
    | '$' :: r => if quantNext r then none else some ([.endAnchor], r, g)
    | '^' :: _ => none
    | '*' :: _ => none
    | '+' :: _ => none
    | '?' :: _ => none
    | '{' :: c :: r =>
      if isDig c then none
      else (withQuant (ccSingle '{') (c :: r)).map (fun pr => ([pr.1], pr.2, g))
    | c :: r => (withQuant (ccSingle c) r).map (fun pr => ([pr.1], pr.2, g))

/-- The engine's compile step on a translated pattern (which always starts
with the `^` anchor): parse the rest as one alternation consuming the whole
string. -/
def pcre2_compile_model (s : List Char) : Option Re :=
  match s with
  | '^' :: body =>
    match parseM (2 * body.length + 8) .alts 0 body with
    | some ([re], [], _) => some re
    | _ => none
  | _ => none

/-- Captured substrings by group number. -/
abbrev Caps := List (Nat × List Char)

/-- All ways the regex can consume a prefix of the subject, in the engine's
backtracking preference order (alternation left first, stars greedy),
together with the captures made on that path.  Each element is the
unconsumed suffix paired with the captures. -/
def runsRe : Re → List Char → List (List Char × Caps)
  | .eps, s => [(s, [])]
  | .endAnchor, s => if s.isEmpty then [(s, [])] else []
  | .sym _, [] => []
  | .sym cc, c :: r => if cc.test c then [(r, [])] else []
  | .star cc, s =>
    let k := (s.takeWhile cc.test).length
    (List.range (k + 1)).map (fun j => (s.drop (k - j), []))
  | .cat a b, s =>
    (runsRe a s).flatMap (fun pr =>
      (runsRe b pr.1).map (fun pr2 => (pr2.1, pr.2 ++ pr2.2)))
  | .alt a b, s => runsRe a s ++ runsRe b s
  | .group i a, s =>
    (runsRe a s).map (fun pr =>
      (pr.1, (i, s.take (s.length - pr.1.length)) :: pr.2))

/-- The engine's match step: the captures of the first full match in
preference order, `none` when the subject does not match. -/
def reCaps (re : Re) (s : List Char) : Option Caps :=
  ((runsRe re s).find? (fun pr => pr.1.isEmpty)).map (fun pr => pr.2)

/-- The substring captured by group `i` (`pcre_result[2i]`/`[2i+1]`); the
empty string when the group is absent (in C this case reads out of bounds —
none of the translations bound to number ranges can produce it on a full
match unless the group sits in an untaken alternation branch). -/
def capSub (caps : Caps) (i : Nat) : List Char :=
  ((caps.find? (fun pr => pr.1 = i)).map (fun pr => pr.2)).getD []

/-! ## `ec_glob.c`: match-time number-range validation and `ec_glob` -/

/-- The range-checking loop of `ec_glob` (lines 483–509): for the `i`-th
number range (1-based, checked against capturing group `i`), reject when
the captured text begins with `'0'`, otherwise parse it with `ec_atoi` and
reject when the value lies outside the inclusive bounds; the first failure
aborts the loop and the result is `EC_GLOB_NOMATCH`. -/
def ec_glob_ranges : List (Int × Int) → Nat → Caps → Int
  | [], _, _ => 0
  | (lo, hi) :: rest, i, caps =>
    let sub := capSub caps i
    if sub.head? = some '0' then EC_GLOB_NOMATCH
    else if ec_atoi sub < lo || hi < ec_atoi sub then EC_GLOB_NOMATCH
    else ec_glob_ranges rest (i + 1) caps

/-- `ec_glob` from ec_glob.c on a pattern-cache miss (the cache is pure
memoization of the deterministic translation, so the miss path determines
the function's value): translate the pattern, compile the translation with
the engine (failure: -1, as when `pcre2_compile` returns NULL), match the
candidate (no structural match: `EC_GLOB_NOMATCH`), then validate the
number ranges.  Out-of-memory paths (-2) are not modelled. -/
def ec_glob (pattern string : List Char) : Int :=
  match ec_glob_translate pattern with
  | .error e => e
  | .ok st =>
    match pcre2_compile_model (pcre_str st) with
    | none => -1
    | some re =>
      match reCaps re string with
      | none => EC_GLOB_NOMATCH
      | some caps => ec_glob_ranges st.nums 1 caps

/-- The structural-match stage of `ec_glob`: the declared number ranges and
the captures of the compiled matcher on the candidate, when the pattern
compiles and the candidate structurally matches. -/
def ec_glob_structural (pattern string : List Char) :
    Option (List (Int × Int) × Caps) :=
  match ec_glob_translate pattern with
  | .error _ => none
  | .ok st =>
    match pcre2_compile_model (pcre_str st) with
    | none => none
    | some re => (reCaps re string).map (fun caps => (st.nums, caps))

/-- The overflow flag of the translation (whether some unchecked buffer
write went past the end of `pcre_str`). -/
def translationOverflowed (p : List Char) : Bool :=
  match ec_glob_translate p with
  | .ok st => st.ov
  | .error _ => false

/-! ## Derived definitions used by the statements -/

/-- The regex matching exactly the literal string `l` (and the end of the
subject) — the shape the translator produces for patterns consisting only
of literal and escaped-literal characters. -/
def litSeq (l : List Char) : Re :=
  mkSeq (l.map (fun c => Re.sym (ccSingle c)) ++ [Re.endAnchor])

/-- One character as the translator's default case emits it: alphanumeric
characters pass through, everything else is backslash-escaped. -/
def escC (c : Char) : List Char :=
  if isAlnumC c then [c] else ['\\', c]

/-- A string of characters as the translator's default case emits it. -/
def escLits (l : List Char) : List Char :=
  (l.map escC).flatten

/-- Whether an append is one of the alternation/number-range emissions of
the paired-braces branches: `(?:`, `)`, `|`, or the capturing number group
`([\+\-]?\d+)`. -/
def braceAltEmit (e : List Char) : Bool :=
  decide (e = toL "(?:") || decide (e = [')']) || decide (e = ['|']) ||
    decide (e = toL "([\\+\\-]?\\d+)")

/-- The lines of a text, as the `ini_parse_file` loop extracts them: split
at each newline; a trailing newline does not produce a final empty line
(the loop exits on `*p == 0`). -/
def iniLinesGo : Nat → List Char → List (List Char)
  | 0, _ => []
  | _ + 1, [] => []
  | fuel + 1, p =>
    (splitNl p).1 ::
      (match (splitNl p).2 with
       | none => []
       | some r => iniLinesGo fuel r)

/-- The lines of a text (entry point with sufficient fuel). -/
def iniLines (p : List Char) : List (List Char) :=
  iniLinesGo (p.length + 1) p

/-- Reference line-by-line run of the parser: deliver the events of every
line and collect the line numbers of every error condition, with no error
state threaded through — the scan and the handler invocations cannot
depend on earlier errors. -/
def ini_spec_run (lim : IniLimits) (ml : Bool) (handler : IniHandler) :
    IniSP → Nat → List (List Char) → List IniEvent × List Nat
  | _, _, [] => ([], [])
  | sp, lineno, line :: rest =>
    let res := ini_process_line lim ml handler sp line
    let tail := ini_spec_run lim ml handler res.1 (lineno + 1) rest
    (res.2.1 ++ tail.1, (if res.2.2.1 then [lineno + 1] else []) ++ tail.2)

/-- The reference result: all events, and the first error line (0 if none).
-/
def ini_spec_result (lim : IniLimits) (ml : Bool) (handler : IniHandler)
    (text : List Char) : List IniEvent × Nat :=
  let r := ini_spec_run lim ml handler ⟨[], []⟩ 0 (iniLines text)
  (r.1, r.2.headD 0)

/-- A line on which the `ini_parse_file` loop advances regardless of the
current section/prev state, the multiline flag and the handler: the advance
bit of `ini_process_line` at the initial state (where the continuation
branch, which always advances, is disabled).  The two `continue` conditions
(oversized section name, oversized name/value) are functions of the line
alone, so this is state-independent. -/
def ini_line_ok (lim : IniLimits) (rawLine : List Char) : Bool :=
  (ini_process_line lim false (fun _ _ _ => true) ⟨[], []⟩ rawLine).2.2.2

/-! ## Concrete inputs named by the claims -/

/-- The pattern `{1..5}`. -/
def patRange15 : List Char := ['{', '1', '.', '.', '5', '}']

/-- The pattern `/**/{1..5}`. -/
def patSlashRange : List Char := ['/', '*', '*', '/', '{', '1', '.', '.', '5', '}']

/-- The pattern `{-5..5}`. -/
def patRangeNeg : List Char := ['{', '-', '5', '.', '.', '5', '}']

/-- The pattern `a{b` (globally unbalanced braces). -/
def patALB : List Char := ['a', '{', 'b']

/-- The pattern `{}` (empty brace pair). -/
def patEmptyBraces : List Char := ['{', '}']

/-- A pattern of 4100 semicolons: every character is emitted by the
unchecked default case (two raw bytes each), so the translation (8202
characters plus the anchors) overruns the 8194-byte `pcre_str` buffer with
no bounds check ever failing. -/
def patSemis : List Char := List.replicate 4100 ';'

/-- The translation state `ec_glob_translate` produces for `patSemis`. -/
def stSemis : TransSt :=
  { emitsRev := ['$'] :: List.replicate 4100 ['\\', ';'], used := 8202,
    ov := true, nums := [] }

/-- The translation state `ec_glob_translate` produces for `patALB`. -/
def stALB : TransSt :=
  { emitsRev := [['$'], ['b'], ['\\', '{'], ['a']], used := 6, ov := false, nums := [] }

/-- A handler accepting every triple. -/
def hAccept : IniHandler := fun _ _ _ => true

/-- Limits small enough to exercise the oversized-field paths on short
inputs. -/
def lim4 : IniLimits := ⟨4, 4, 4⟩

/-- Comfortable limits for round-trip examples. -/
def lim8 : IniLimits := ⟨8, 8, 8⟩

/-- A one-file disk whose file `f` holds a line with no separator. -/
def diskBad : List Char → Option (List Char) :=
  fun f => if f = toL "f" then some (toL "bad") else none

/-- A one-file disk whose file `f` holds a well-formed pair. -/
def diskGood : List Char → Option (List Char) :=
  fun f => if f = toL "f" then some (toL "k=v") else none

/-- Extension of a translation state that neither touches the number-range
list nor performs any alternation/number-group emission. -/
def SafeExt (st st2 : TransSt) : Prop :=
  st2.nums = st.nums ∧ ∀ e ∈ st2.emitsRev, e ∈ st.emitsRev ∨ braceAltEmit e = false

/-! ## Theorems -/

theorem ccSingle_test (c x : Char) : (ccSingle c).test x = decide (x = c) := by
  by_cases h : x = c
  · subst h
    simp [ccSingle, CharClass.test]
  · simp [ccSingle, CharClass.test, h]
    intro h1
    exact lt_of_le_of_ne h1 (fun e => h e.symm)

theorem reCaps_litSeq : ∀ (l s : List Char), reCaps (litSeq l) s = if s = l then some [] else none := by
  intro l
  induction l with
  | nil =>
    intro s
    cases s with
    | nil => simp [litSeq, mkSeq, runsRe, reCaps]
    | cons x r => simp [litSeq, mkSeq, runsRe, reCaps]
  | cons c t ih =>
    intro s
    cases s with
    | nil => simp [litSeq, mkSeq, runsRe, reCaps]
    | cons x r =>
      by_cases hx : x = c
      · subst hx
        have h1 : runsRe (litSeq (x :: t)) (x :: r) = runsRe (litSeq t) r := by
          simp [litSeq, mkSeq, runsRe, ccSingle_test]
        have h2 : reCaps (litSeq (x :: t)) (x :: r) = reCaps (litSeq t) r := by
          simp [reCaps, h1]
        rw [h2, ih r]
        by_cases hr : r = t <;> simp [hr]
      · have h1 : runsRe (litSeq (c :: t)) (x :: r) = [] := by
          simp [litSeq, mkSeq, runsRe, ccSingle_test, hx]
        simp [reCaps, h1, hx]

theorem ec_glob_lit (p l : List Char)
    (h : (ec_glob_translate p).map
        (fun st => (st.nums, pcre2_compile_model (pcre_str st))) =
      .ok ([], some (litSeq l))) :
    ∀ s, ec_glob p s = if s = l then 0 else EC_GLOB_NOMATCH := by
  intro s
  cases hT : ec_glob_translate p with
  | error e =>
    rw [hT] at h
    exact absurd h (by simp [Except.map])
  | ok st =>
    rw [hT] at h
    simp [Except.map] at h
    obtain ⟨h1, h2⟩ := h
    unfold ec_glob
    rw [hT]
    dsimp only
    rw [h2]
    dsimp only
    rw [reCaps_litSeq]
    by_cases hs : s = l
    · simp [hs, h1, ec_glob_ranges]
    · simp [hs]

example : ∀ s, ec_glob patEmptyBraces s = if s = patEmptyBraces then 0 else EC_GLOB_NOMATCH :=
  ec_glob_lit patEmptyBraces patEmptyBraces (by rfl)

example : ∀ s, ec_glob (toL "[a/b]") s = if s = toL "[a/b]" then 0 else EC_GLOB_NOMATCH :=
  ec_glob_lit (toL "[a/b]") (toL "[a/b]") (by rfl)

example : ∀ s, ec_glob patALB s = if s = patALB then 0 else EC_GLOB_NOMATCH :=
  ec_glob_lit patALB patALB (by rfl)

example : ec_glob (toL "[a.b/c]") (toL "[aXb/c]") = 0 := by rfl

example : ec_glob patRangeNeg (toL "0") = EC_GLOB_NOMATCH := by rfl


theorem ec_glob_ranges_nomatch_iff :
    ∀ (nums : List (Int × Int)) (i : Nat) (caps : Caps),
      ec_glob_ranges nums i caps = EC_GLOB_NOMATCH ↔
        ∃ j, j < nums.length ∧
          ((capSub caps (i + j)).head? = some '0' ∨
           ec_atoi (capSub caps (i + j)) < (nums.getD j (0, 0)).1 ∨
           (nums.getD j (0, 0)).2 < ec_atoi (capSub caps (i + j))) := by
  intro nums
  induction nums with
  | nil =>
    intro i caps
    simp [ec_glob_ranges, EC_GLOB_NOMATCH]
  | cons hd tl ih =>
    intro i caps
    obtain ⟨lo, hi⟩ := hd
    rw [ec_glob_ranges]
    by_cases h0 : (capSub caps i).head? = some '0'
    · simp only [h0, if_pos, eq_self_iff_true, true_iff]
      exact ⟨0, by simp, by simpa using Or.inl h0⟩
    · rw [if_neg h0]
      by_cases hb : ec_atoi (capSub caps i) < lo ∨ hi < ec_atoi (capSub caps i)
      · rw [if_pos (by simpa using hb)]
        simp only [eq_self_iff_true, true_iff]
        refine ⟨0, by simp, ?_⟩
        simpa using Or.inr hb
      · rw [if_neg (by simpa using hb)]
        rw [ih (i + 1) caps]
        constructor
        · rintro ⟨j, hj, hP⟩
          refine ⟨j + 1, by simpa using hj, ?_⟩
          have he : i + (j + 1) = i + 1 + j := by omega
          rw [he]
          simpa using hP
        · rintro ⟨j, hj, hP⟩
          match j with
          | 0 =>
            exfalso
            simp only [Nat.add_zero, List.getD_cons_zero] at hP
            rcases hP with h | h | h
            · exact h0 h
            · exact hb (Or.inl h)
            · exact hb (Or.inr h)
          | j' + 1 =>
            refine ⟨j', by simp at hj; omega, ?_⟩
            have he : i + 1 + j' = i + (j' + 1) := by omega
            rw [he]
            simpa using hP

theorem ec_glob_eq_ranges (p s : List Char) (nums : List (Int × Int)) (caps : Caps)
    (h : ec_glob_structural p s = some (nums, caps)) :
    ec_glob p s = ec_glob_ranges nums 1 caps := by
  unfold ec_glob_structural at h
  unfold ec_glob
  cases hT : ec_glob_translate p with
  | error e =>
    rw [hT] at h
    simp at h
  | ok st =>
    rw [hT] at h
    dsimp only at h
    cases hC : pcre2_compile_model (pcre_str st) with
    | none =>
      rw [hC] at h
      simp at h
    | some re =>
      rw [hC] at h
      dsimp only at h
      cases hM : reCaps re s with
      | none =>
        rw [hM] at h
        simp at h
      | some caps2 =>
        rw [hM] at h
        simp at h
        simp only [hT]
        simp only [hC]
        simp only [hM]
        rw [h.1, h.2]


theorem SafeExt.same (st : TransSt) : SafeExt st st :=
  ⟨rfl, fun _ he => Or.inl he⟩

theorem SafeExt.comp {a b c : TransSt} (h1 : SafeExt a b) (h2 : SafeExt b c) : SafeExt a c := by
  refine ⟨h2.1.trans h1.1, fun e he => ?_⟩
  rcases h2.2 e he with h | h
  · exact h1.2 e h
  · exact Or.inr h

theorem SafeExt.raw {s : List Char} (st : TransSt) (hs : braceAltEmit s = false) :
    SafeExt st (rawPut s st) := by
  refine ⟨rfl, fun e he => ?_⟩
  simp only [rawPut, List.mem_cons] at he
  rcases he with he | he
  · exact Or.inr (he ▸ hs)
  · exact Or.inl he

theorem SafeExt.checked {s : List Char} {st st2 : TransSt} (hs : braceAltEmit s = false)
    (h : checkedCat s st = .ok st2) : SafeExt st st2 := by
  unfold checkedCat at h
  split at h
  · exact absurd h (by simp)
  · refine ⟨by injection h with h2; rw [← h2], fun e he => ?_⟩
    injection h with h2
    rw [← h2] at he
    simp only [List.mem_cons] at he
    rcases he with he | he
    · exact Or.inr (he ▸ hs)
    · exact Or.inl he

theorem braceAlt_esc (x : Char) : braceAltEmit ['\\', x] = false := by
  simp [braceAltEmit, toL]

theorem braceAlt_escC (c : Char) : braceAltEmit (escC c) = false := by
  unfold escC
  by_cases hc : isAlnumC c = true
  · rw [if_pos hc]
    by_cases h1 : c = ')'
    · rw [h1] at hc
      exact absurd hc (by decide)
    · by_cases h2 : c = '|'
      · rw [h2] at hc
        exact absurd hc (by decide)
      · simp [braceAltEmit, toL, h1, h2]
  · rw [if_neg hc]
    exact braceAlt_esc c

theorem braceAlt_litRun (before : List Char) (tail : List Char) :
    braceAltEmit ('\\' :: before ++ tail) = false := by
  simp [braceAltEmit, toL]

theorem safe_bind_step {s : List Char} {st st2 : TransSt} {f : TransSt → Except Int TransSt}
    (hs : braceAltEmit s = false)
    (h : (checkedCat s st >>= f) = .ok st2)
    (ih : ∀ stm, f stm = .ok st2 → SafeExt stm st2) :
    SafeExt st st2 := by
  cases hcc : checkedCat s st with
  | error e =>
    rw [hcc] at h
    exact absurd h (by simp [Bind.bind, Except.bind])
  | ok stm =>
    rw [hcc] at h
    simp only [Bind.bind, Except.bind] at h
    exact (SafeExt.checked hs hcc).comp (ih stm h)


-- re-check the behavior is unchanged after the restructure
example : ec_glob (toL "[a.b/c]") (toL "[aXb/c]") = 0 := by rfl
example : ec_glob patRangeNeg (toL "0") = EC_GLOB_NOMATCH := by rfl
example : ec_glob ['{','{','x','}','}'] ['{','{','x','}','}'] = 0 := by rfl
example : ec_glob (toL "[ab") (toL "x") = -1 := by rfl
example : ec_glob patSlashRange (toL "/3") = EC_GLOB_NOMATCH := by rfl

theorem braceAlt_bs (l : List Char) : braceAltEmit ('\\' :: l) = false := by
  simp [braceAltEmit, toL]

theorem braceAlt_alnum {c : Char} (hc : isAlnumC c = true) : braceAltEmit [c] = false := by
  by_cases h1 : c = ')'
  · rw [h1] at hc
    exact absurd hc (by decide)
  · by_cases h2 : c = '|'
    · rw [h2] at hc
      exact absurd hc (by decide)
    · simp [braceAltEmit, toL, h1, h2]

theorem trans_unpaired_safe :
    ∀ (fuel : Nat) (inBr : Bool) (rem : List Char) (st st2 : TransSt),
      ec_glob_trans false fuel inBr 0 rem st = .ok st2 → SafeExt st st2 := by
  intro fuel
  induction fuel with
  | zero =>
    intro inBr rem st st2 h
    exact absurd h (by simp [ec_glob_trans])
  | succ f ih =>
    intro inBr rem st st2 h
    rw [ec_glob_trans.eq_def] at h
    split at h
    all_goals try (dsimp only at h)
    all_goals try split at h
    all_goals try split at h
    all_goals try split at h
    all_goals try injections
    all_goals try subst_vars
    all_goals
      first
      | exact SafeExt.raw _ (by decide)
      | exact (SafeExt.raw _ (braceAlt_esc _)).comp (ih _ _ _ _ h)
      | exact (SafeExt.raw _ (braceAlt_bs _)).comp (ih _ _ _ _ h)
      | exact (SafeExt.raw _ (braceAlt_escC _)).comp (ih _ _ _ _ h)
      | exact (SafeExt.raw _ (braceAlt_alnum (by assumption))).comp (ih _ _ _ _ h)
      | exact (SafeExt.raw _ (by decide)).comp (ih _ _ _ _ h)
      | (exfalso; simp_all; done)
      | exact safe_bind_step (by decide) h (fun stm hm => ih _ _ _ _ hm)

theorem bracesPairedLoop_neutral :
    ∀ (p : List Char), (∀ c ∈ p, c ≠ '{' ∧ c ≠ '}' ∧ c ≠ '\\') →
      ∀ l : Int, bracesPairedLoop l l p = true := by
  intro p
  induction p with
  | nil =>
    intro _ l
    simp [bracesPairedLoop]
  | cons c rest ih =>
    intro h l
    obtain ⟨h1, h2, h3⟩ := h c (List.mem_cons_self _ _)
    rw [bracesPairedLoop.eq_def]
    simp only [h1, h2, h3, if_false, ite_false, if_neg, lt_irrefl]
    simpa using ih (fun d hd => h d (List.mem_cons_of_mem _ hd)) l

theorem bracesPaired_semis : are_braces_paired patSemis = true := by
  unfold are_braces_paired patSemis
  exact bracesPairedLoop_neutral _
    (fun c hc => by
      have := List.eq_of_mem_replicate hc
      subst this
      exact ⟨by decide, by decide, by decide⟩) 0

theorem trans_semis :
    ∀ (n fuel : Nat) (st : TransSt), n < fuel →
      ec_glob_trans true fuel false 0 (List.replicate n ';') st =
        .ok { emitsRev := ['$'] :: (List.replicate n ['\\', ';'] ++ st.emitsRev)
              used := st.used + 2 * n + 1
              ov := st.ov || decide (pcreCap < st.used + 2 * n + 1)
              nums := st.nums } := by
  intro n
  induction n with
  | zero =>
    intro fuel st hf
    match fuel, hf with
    | f + 1, _ =>
      simp [List.replicate, ec_glob_trans, rawPut]
  | succ m ih =>
    intro fuel st hf
    match fuel, hf with
    | f + 1, hf =>
      have hstep : ec_glob_trans true (f + 1) false 0 (List.replicate (m + 1) ';') st =
          ec_glob_trans true f false 0 (List.replicate m ';') (rawPut ['\\', ';'] st) := rfl
      rw [hstep, ih f (rawPut ['\\', ';'] st) (by omega)]
      have hov : ((st.ov || decide (pcreCap < st.used + 2)) ||
            decide (pcreCap < st.used + 2 + 2 * m + 1)) =
          (st.ov || decide (pcreCap < st.used + 2 * (m + 1) + 1)) := by
        by_cases hA : pcreCap < st.used + 2
        · have hB : pcreCap < st.used + 2 * (m + 1) + 1 := by omega
          have hB2 : pcreCap < st.used + 2 + 2 * m + 1 := by omega
          simp [hA, hB, hB2]
        · have : (st.used + 2 + 2 * m + 1) = st.used + 2 * (m + 1) + 1 := by omega
          simp [hA, this]
      simp only [rawPut, List.length_cons, List.length_nil]
      congr 1
      refine TransSt.mk.injEq .. ▸ ⟨?_, ?_, ?_, rfl⟩
      · rw [show List.replicate (m + 1) ['\\', ';'] = List.replicate m ['\\', ';'] ++ [['\\', ';']] from List.replicate_succ' _ _]
        simp
      · omega
      · simpa using hov

theorem parseM_semis :
    ∀ (n g fuel : Nat), 2 * n + 2 ≤ fuel →
      parseM fuel .items g (escLits (List.replicate n ';') ++ ['$']) =
        some (List.replicate n (Re.sym (ccSingle ';')) ++ [Re.endAnchor], [], g) := by
  intro n
  induction n with
  | zero =>
    intro g fuel hf
    match fuel, (show 2 ≤ fuel from hf) with
    | f + 2, _ => rfl
  | succ m ih =>
    intro g fuel hf
    match fuel, (show 2 ≤ fuel from by omega) with
    | f + 2, _ =>
      have hih := ih g (f + 1) (by omega)
      cases m with
      | zero =>
        match f, (show 1 ≤ f from by omega) with
        | f4 + 1, _ => rfl
      | succ k =>
        have hstep : parseM (f + 2) PM.items g
              (escLits (List.replicate (k + 1 + 1) ';') ++ ['$']) =
            (match parseM (f + 1) PM.items g (escLits (List.replicate (k + 1) ';') ++ ['$']) with
             | none => none
             | some (res, s3, g3) => some (Re.sym (ccSingle ';') :: res, s3, g3)) := rfl
        rw [hstep, hih]
        simp [List.replicate_succ]

theorem tfuel_semis : transFuel patSemis = 8201 := by
  unfold transFuel patSemis
  rw [List.length_replicate, List.countP_eq_zero.mpr]
  intro a ha
  have := List.eq_of_mem_replicate ha
  subst this
  decide

theorem translate_semis_h1 :
    ec_glob_translate patSemis =
      ec_glob_trans true 8201 false 0 (List.replicate 4100 ';')
        { emitsRev := [], used := 1, ov := false, nums := [] } := by
  unfold ec_glob_translate
  rw [bracesPaired_semis, tfuel_semis]
  rfl

theorem translate_semis : ec_glob_translate patSemis = .ok stSemis := by
  rewrite [translate_semis_h1, trans_semis 4100 8201 _ (by omega)]
  refine congrArg Except.ok ?_
  refine TransSt.mk.injEq .. ▸ ⟨?_, by norm_num, ?_, rfl⟩
  · rewrite [List.append_nil]
    exact rfl
  · norm_num [pcreCap, PATTERN_MAX]

theorem escLits_semis (n : Nat) :
    escLits (List.replicate n ';') = (List.replicate n ['\\', ';']).flatten := by
  unfold escLits
  rewrite [List.map_replicate]
  exact rfl

theorem flatten_replicate_len (n : Nat) :
    ((List.replicate n ['\\', ';']).flatten).length = 2 * n := by
  induction n with
  | zero => rfl
  | succ m ih =>
    rewrite [List.replicate_succ, List.flatten_cons, List.length_append, ih,
      show (['\\', ';'] : List Char).length = 2 from rfl]
    omega

theorem compile_semis (n : Nat) :
    pcre2_compile_model ('^' :: (escLits (List.replicate n ';') ++ ['$'])) =
      some (litSeq (List.replicate n ';')) := by
  have hlen : (escLits (List.replicate n ';') ++ ['$']).length = 2 * n + 1 := by
    rewrite [List.length_append, escLits_semis, flatten_replicate_len]
    exact rfl
  show (match parseM (2 * (escLits (List.replicate n ';') ++ ['$']).length + 8) PM.alts 0
      (escLits (List.replicate n ';') ++ ['$']) with
    | some ([re], [], _) => some re
    | _ => none) = some (litSeq (List.replicate n ';'))
  rewrite [hlen]
  rewrite [show 2 * (2 * n + 1) + 8 = (4 * n + 9) + 1 from by ring]
  have halts : parseM ((4 * n + 9) + 1) PM.alts 0 (escLits (List.replicate n ';') ++ ['$']) =
      (match parseM (4 * n + 9) PM.items 0 (escLits (List.replicate n ';') ++ ['$']) with
       | none => none
       | some (res, s2, g2) =>
         match s2 with
         | '|' :: r =>
           match parseM (4 * n + 9) PM.alts g2 r with
           | none => none
           | some ([re2], s3, g3) => some ([Re.alt (mkSeq res) re2], s3, g3)
           | some _ => none
         | _ => some ([mkSeq res], s2, g2)) := rfl
  rewrite [halts, parseM_semis n 0 (4 * n + 9) (by omega)]
  rewrite [litSeq.eq_def, List.map_replicate]
  exact rfl

theorem pcre_str_semis :
    pcre_str stSemis = '^' :: (escLits (List.replicate 4100 ';') ++ ['$']) := by
  show '^' :: ((['$'] :: List.replicate 4100 ['\\', ';']).reverse).flatten =
    '^' :: (escLits (List.replicate 4100 ';') ++ ['$'])
  rewrite [List.reverse_cons, List.reverse_replicate, List.flatten_append,
    escLits_semis]
  rewrite [show (([['$']] : List (List Char))).flatten = ['$'] ++ [] from rfl,
    List.append_nil]
  exact rfl

theorem one_ne_semis : (['x'] : List Char) ≠ List.replicate 4100 ';' := by
  intro h
  have hl := congrArg List.length h
  rewrite [List.length_replicate] at hl
  exact absurd hl (by decide)


/-- Claim C7: the length bounds are not enforced safely.  For the pattern
of 4100 `;` characters, each character is emitted through a raw
`*(p_pcre++) = '\\'; *(p_pcre++) = c` write with no bounds check, so the
write position runs past the end of the `2 * PATTERN_MAX` buffer (the
model's overflow flag is set), and the call then proceeds to match against
the overflown buffer instead of failing with -1. -/
theorem claim_C7_unchecked_overflow :
    translationOverflowed patSemis = true ∧
    ec_glob patSemis ['x'] = EC_GLOB_NOMATCH := by
  constructor
  · unfold translationOverflowed
    rewrite [translate_semis]
    exact rfl
  · unfold ec_glob
    rewrite [translate_semis]
    dsimp only
    rewrite [pcre_str_semis, compile_semis 4100]
    dsimp only
    rewrite [reCaps_litSeq, if_neg one_ne_semis]
    exact rfl

/-- Claim C1: in the presence of `/**/` (which the translator emits as a
capturing group), the i-th number range is checked against the i-th
capturing group of the compiled matcher, which is no longer the i-th
number group: for `/**/{1..5}` against `/3`, group 1 captures `/`, group 2
captures `3`, and the single declared range (1,5) is validated against the
`/` capture, so the match is rejected although 3 lies in the range. -/
theorem claim_C1_slashes_capture_mismatch :
    (ec_glob_structural patSlashRange (toL "/3")).map
        (fun pr => (pr.1, capSub pr.2 1, capSub pr.2 2)) =
      some ([(1, 5)], toL "/", toL "3") ∧
    ec_glob patSlashRange (toL "/3") = EC_GLOB_NOMATCH := ⟨by rfl, by rfl⟩

/-- Claim C2 counterexample: the capture `0` of `{-5..5}` is exactly the
single character `0` and 0 lies inside the bounds, yet the result is
no-match — the leading-zero test `*substring_start == '0'` does not exempt
the one-digit string. -/
theorem claim_C2_counterexample :
    ec_glob_structural patRangeNeg (toL "0") = some ([(-5, 5)], [(1, ['0'])]) ∧
    ec_glob patRangeNeg (toL "0") = EC_GLOB_NOMATCH := ⟨by rfl, by rfl⟩

/-- Claim C2 (corrected): for every structurally matching candidate the
result is no-match iff some captured numeric substring starts with the
character `0` (with no length-greater-than-1 exemption) or parses outside
the declared inclusive bounds; the claim's three examples hold. -/
theorem claim_C2_range_validation :
    (∀ (p s : List Char) (nums : List (Int × Int)) (caps : Caps),
      ec_glob_structural p s = some (nums, caps) →
      (ec_glob p s = EC_GLOB_NOMATCH ↔
        ∃ j, j < nums.length ∧
          ((capSub caps (1 + j)).head? = some '0' ∨
           ec_atoi (capSub caps (1 + j)) < (nums.getD j (0, 0)).1 ∨
           (nums.getD j (0, 0)).2 < ec_atoi (capSub caps (1 + j))))) ∧
    ec_glob patRange15 (toL "3") = 0 ∧
    ec_glob patRange15 (toL "6") = EC_GLOB_NOMATCH ∧
    ec_glob patRange15 (toL "03") = EC_GLOB_NOMATCH := by
  refine ⟨?_, by rfl, by rfl, by rfl⟩
  intro p s nums caps h
  rw [ec_glob_eq_ranges p s nums caps h]
  exact ec_glob_ranges_nomatch_iff nums 1 caps

theorem claim_C2_range_validation_witness :
    ec_glob patRange15 (toL "6") = EC_GLOB_NOMATCH :=
  (claim_C2_range_validation.1 patRange15 (toL "6") [(1, 5)] [(1, ['6'])] (by rfl)).mpr
    ⟨0, by decide, Or.inr (Or.inr (by decide))⟩

/-- Claim C4: when the unescaped brace counts are not globally balanced,
the translation declares no numeric range and emits no alternation or
number-group syntax anywhere — every brace is treated as a literal — and
the pattern `a\x7bb` matches exactly the literal string `a\x7bb`. -/
theorem claim_C4_unbalanced_braces_literal :
    (∀ (p : List Char) (st : TransSt), are_braces_paired p = false →
        ec_glob_translate p = .ok st →
        st.nums = [] ∧ ∀ e ∈ st.emitsRev, braceAltEmit e = false) ∧
    are_braces_paired patALB = false ∧
    (∀ s, ec_glob patALB s = if s = patALB then 0 else EC_GLOB_NOMATCH) := by
  refine ⟨?_, by rfl, ec_glob_lit patALB patALB (by rfl)⟩
  intro p st hbp ht
  unfold ec_glob_translate at ht
  rw [hbp] at ht
  have hs := trans_unpaired_safe _ _ _ _ _ ht
  refine ⟨hs.1, fun e he => ?_⟩
  rcases hs.2 e he with h | h
  · exact absurd h (by simp)
  · exact h

theorem claim_C4_unbalanced_braces_literal_witness :
    stALB.nums = [] ∧ braceAltEmit ['\\', '{'] = false :=
  ⟨(claim_C4_unbalanced_braces_literal.1 patALB stALB (by rfl) (by rfl)).1,
   (claim_C4_unbalanced_braces_literal.1 patALB stALB (by rfl) (by rfl)).2 ['\\', '{']
     (by decide)⟩

/-- Claim C5 counterexample: the bracket run of `[a.b/c]` is copied with
its `.` left live as an engine metacharacter, so `[aXb/c]` also matches —
the run is not matched as literal text. -/
theorem claim_C5_counterexample :
    ec_glob (toL "[a.b/c]") (toL "[aXb/c]") = 0 ∧ toL "[aXb/c]" ≠ toL "[a.b/c]" :=
  ⟨by rfl, by decide⟩

/-- Claim C5 (corrected): a bracket run containing an unescaped `/` is
copied with only `[` escaped and `\]` appended; when the run contains no
engine metacharacters — as in `[a/b]` — the pattern matches exactly the
literal candidate, but metacharacters inside the run stay live (see the
counterexample). -/
theorem claim_C5_literal_bracket :
    ∀ s, ec_glob (toL "[a/b]") s = if s = toL "[a/b]" then 0 else EC_GLOB_NOMATCH :=
  ec_glob_lit (toL "[a/b]") (toL "[a/b]") (by rfl)

/-- Claim C10: the empty brace pair takes the single-content path, the
braces are escaped as literals, and `\x7b\x7d` matches exactly the
candidate `\x7b\x7d`. -/
theorem claim_C10_empty_braces :
    ∀ s, ec_glob patEmptyBraces s = if s = patEmptyBraces then 0 else EC_GLOB_NOMATCH :=
  ec_glob_lit patEmptyBraces patEmptyBraces (by rfl)

theorem splitNl_none : ∀ (p : List Char), (splitNl p).2 = none → (splitNl p).1 = p := by
  intro p
  induction p with
  | nil => intro _; rfl
  | cons c r ih =>
    intro h
    by_cases hc : c = '\n'
    · simp [splitNl, hc] at h
    · simp only [splitNl, hc, if_false, ite_false, if_neg] at h ⊢
      simp only [List.cons.injEq, true_and]
      exact ih h

theorem splitNl_length : ∀ (p r : List Char), (splitNl p).2 = some r →
    (splitNl p).1.length + 1 + r.length = p.length := by
  intro p
  induction p with
  | nil => intro r h; simp [splitNl] at h
  | cons c t ih =>
    intro r h
    by_cases hc : c = '\n'
    · simp only [splitNl, hc, if_true, ite_true] at h ⊢
      injection h with h2
      subst h2
      simp only [List.length_nil, List.length_cons]
      omega
    · simp only [splitNl, hc, if_false, ite_false, if_neg] at h ⊢
      have := ih r h
      simp only [List.length_cons]
      omega

theorem iniLinesGo_fuel : ∀ (fuel fuel2 : Nat) (p : List Char),
    p.length < fuel → p.length < fuel2 → iniLinesGo fuel p = iniLinesGo fuel2 p := by
  intro fuel
  induction fuel with
  | zero =>
    intro fuel2 p h1 h2
    exact absurd h1 (by omega)
  | succ f ih =>
    intro fuel2 p h1 h2
    match fuel2, h2 with
    | f2 + 1, h2 =>
      cases p with
      | nil => rfl
      | cons c t =>
        show (splitNl (c :: t)).1 ::
            (match (splitNl (c :: t)).2 with
             | none => []
             | some r => iniLinesGo f r) =
          (splitNl (c :: t)).1 ::
            (match (splitNl (c :: t)).2 with
             | none => []
             | some r => iniLinesGo f2 r)
        cases hr : (splitNl (c :: t)).2 with
        | none => simp
        | some r =>
          have hlen := splitNl_length (c :: t) r hr
          simp only [List.length_cons] at hlen h1 h2
          simp only [List.cons.injEq, true_and]
          exact ih f2 r (by omega) (by omega)

theorem iniLinesGo_eq (fuel : Nat) (p : List Char) (h : p.length < fuel) :
    iniLinesGo fuel p = iniLines p :=
  iniLinesGo_fuel fuel (p.length + 1) p h (by omega)



theorem ini_process_line_advances (lim : IniLimits) (ml : Bool) (handler : IniHandler)
    (sp : IniSP) (line : List Char) (h : ini_line_ok lim line = true) :
    (ini_process_line lim ml handler sp line).2.2.2 = true := by
  unfold ini_line_ok at h
  unfold ini_process_line at h ⊢
  dsimp only at h ⊢
  cases hs : lskip (rstrip (line.take 4999)) with
  | nil => rfl
  | cons c s1 =>
    rw [hs] at h
    dsimp only at h ⊢
    by_cases hc1 : (decide (c = ';') || decide (c = '#')) = true
    · rw [if_pos hc1]
    · rw [if_neg hc1] at h ⊢
      simp only [Bool.false_and] at h
      rw [if_neg Bool.false_ne_true] at h
      by_cases hcont : (ml && !sp.prev.isEmpty &&
          (match (rstrip (line.take 4999)).head? with
           | some c0 => isSpc c0
           | none => false)) = true
      · rw [if_pos hcont]
      · rw [if_neg hcont]
        by_cases hbr : c = '['
        · rw [if_pos hbr] at h ⊢
          cases hf : find_last_char_or_comment ']' false s1 with
          | none =>
            rfl
          | some pr =>
            obtain ⟨name, snd⟩ := pr
            rw [hf] at h
            dsimp only at h ⊢
            by_cases hlen : lim.maxSection < name.length
            · rw [if_pos hlen] at h
              exact absurd h (by simp)
            · rw [if_neg hlen]
        · rw [if_neg hbr] at h ⊢
          by_cases hguard : (!(c :: s1).isEmpty && (decide (c ≠ ';') || decide (c = '#'))) = true
          · rw [if_pos hguard] at h ⊢
            cases hsp : (match (find_char_or_comment '=' false (c :: s1)).2 with
              | '=' :: rest => some ((find_char_or_comment '=' false (c :: s1)).1, rest)
              | _ =>
                match (find_char_or_comment ':' false (c :: s1)).2 with
                | ':' :: rest => some ((find_char_or_comment ':' false (c :: s1)).1, rest)
                | _ => none) with
            | none =>
              rfl
            | some lr =>
              obtain ⟨lhs, rhs⟩ := lr
              rw [hsp] at h
              dsimp only at h ⊢
              by_cases hlen2 : (decide (lim.maxName < (rstrip lhs).length) ||
                  decide (lim.maxValue <
                    (rstrip (find_char_or_comment '\x00' false (lskip rhs)).1).length)) = true
              · rw [if_pos hlen2] at h
                exact absurd h (by simp)
              · rw [if_neg hlen2]
          · rw [if_neg hguard] at h ⊢

theorem iniLines_cons_none (c : Char) (t : List Char) (h : (splitNl (c :: t)).2 = none) :
    iniLines (c :: t) = [(splitNl (c :: t)).1] := by
  show (splitNl (c :: t)).1 ::
      (match (splitNl (c :: t)).2 with
       | none => []
       | some r => iniLinesGo (t.length + 1) r) = _
  rw [h]

theorem iniLines_cons_some (c : Char) (t r : List Char)
    (h : (splitNl (c :: t)).2 = some r) :
    iniLines (c :: t) = (splitNl (c :: t)).1 :: iniLines r := by
  show (splitNl (c :: t)).1 ::
      (match (splitNl (c :: t)).2 with
       | none => []
       | some r2 => iniLinesGo (t.length + 1) r2) = _
  rw [h]
  dsimp only
  have hlen := splitNl_length (c :: t) r h
  simp only [List.length_cons] at hlen
  rw [iniLinesGo_eq (t.length + 1) r (by omega)]

theorem ini_parse_lines_spec (lim : IniLimits) (ml : Bool) (handler : IniHandler) :
    ∀ (fuel : Nat) (p : List Char) (sp : IniSP) (error lineno : Nat),
      p.length < fuel →
      (∀ l ∈ iniLines p, ini_line_ok lim l = true) →
      ini_parse_lines lim ml handler fuel sp error lineno p =
        some ((ini_spec_run lim ml handler sp lineno (iniLines p)).1,
          if error = 0 then (ini_spec_run lim ml handler sp lineno (iniLines p)).2.headD 0
          else error) := by
  intro fuel
  induction fuel with
  | zero =>
    intro p sp error lineno h1 _
    exact absurd h1 (by omega)
  | succ f ih =>
    intro p sp error lineno h1 hok
    cases p with
    | nil =>
      by_cases he : error = 0
      · subst he
        rfl
      · show some ([], error) = _
        rw [if_neg he]
        rfl
    | cons c t =>
      have hadv : (ini_process_line lim ml handler sp (splitNl (c :: t)).1).2.2.2 = true := by
        apply ini_process_line_advances
        apply hok
        cases hsn : (splitNl (c :: t)).2 with
        | none =>
          rw [iniLines_cons_none c t hsn]
          exact List.mem_cons_self _ _
        | some r =>
          rw [iniLines_cons_some c t r hsn]
          exact List.mem_cons_self _ _
      have hstep : ini_parse_lines lim ml handler (f + 1) sp error lineno (c :: t) =
          (let sn := splitNl (c :: t)
           let res := ini_process_line lim ml handler sp sn.1
           let error2 := if error = 0 && res.2.2.1 then lineno + 1 else error
           if res.2.2.2 then
             match sn.2 with
             | none => some (res.2.1, error2)
             | some rest =>
               (ini_parse_lines lim ml handler f res.1 error2 (lineno + 1) rest).map
                 (fun pr => (res.2.1 ++ pr.1, pr.2))
           else
             (ini_parse_lines lim ml handler f res.1 error2 (lineno + 1) (c :: t)).map
               (fun pr => (res.2.1 ++ pr.1, pr.2))) := rfl
      rw [hstep]
      dsimp only
      rw [if_pos hadv]
      cases hsn : (splitNl (c :: t)).2 with
      | none =>
        rw [iniLines_cons_none c t hsn]
        dsimp only [ini_spec_run]
        by_cases he : error = 0
        · by_cases hr1 : (ini_process_line lim ml handler sp (splitNl (c :: t)).1).2.2.1 = true
          · simp [he, hr1]
          · simp [he, hr1]
        · simp [he]
      | some r =>
        dsimp only
        have hlen := splitNl_length (c :: t) r hsn
        have hlt : r.length < f := by
          simp only [List.length_cons] at hlen h1
          omega
        have hoktail : ∀ l ∈ iniLines r, ini_line_ok lim l = true := by
          intro l hl
          apply hok
          rw [iniLines_cons_some c t r hsn]
          exact List.mem_cons_of_mem _ hl
        rw [ih r _ _ _ hlt hoktail]
        rw [iniLines_cons_some c t r hsn]
        dsimp only [ini_spec_run, Option.map]
        by_cases he : error = 0
        · by_cases hr1 : (ini_process_line lim ml handler sp (splitNl (c :: t)).1).2.2.1 = true
          · simp [he, hr1]
          · simp [he, hr1]
        · simp [he]

/-- Claim C6: the scan does continue past handler rejections and syntax
errors, delivering every remaining triple and reporting the first offending
line — but only on texts none of whose lines hits an oversized-field
`continue` (those hang the loop, see the counterexample): on such texts the
parse equals the error-oblivious reference run. -/
theorem claim_C6_continue_after_error :
    ∀ (lim : IniLimits) (ml : Bool) (handler : IniHandler) (text : List Char),
      (∀ l ∈ iniLines text, ini_line_ok lim l = true) →
      ini_parse_file lim ml handler text = some (ini_spec_result lim ml handler text) := by
  intro lim ml handler text hok
  unfold ini_parse_file ini_spec_result
  rw [ini_parse_lines_spec lim ml handler (text.length + 1) text ⟨[], []⟩ 0 0 (by omega) hok]
  rw [if_pos rfl]

theorem claim_C6_witness :
    ini_parse_file lim8 true hAccept (toL "a=1\nbad\nb=2") =
      some ([([], ['a'], ['1']), ([], ['b'], ['2'])], 2) :=
  (claim_C6_continue_after_error lim8 true hAccept (toL "a=1\nbad\nb=2") (by decide)).trans
    (by rfl)

theorem claim_C6_counterexample :
    ini_parse_file lim4 true hAccept (toL "k=v") = some ([([], ['k'], ['v'])], 0) ∧
    ini_parse_file lim4 true hAccept (toL "[abcde]\nk=v") = none :=
  ⟨by rfl, by rfl⟩

/-- Claim C8: an oversized field is not "silently skipped": the `continue`
in the rewritten while-loop skips the `p = nextLine + 1` advance, so the
loop reprocesses the same line forever and the parse never returns (`none`
for every fuel; here the fuel the entry point passes).  With limits large
enough the very same lines parse normally. -/
theorem claim_C8_oversized_field_hangs :
    ini_line_ok lim4 (toL "[abcde]") = false ∧
    ini_line_ok lim4 (toL "abcde=x") = false ∧
    ini_line_ok lim4 (toL "a=vvvvv") = false ∧
    ini_parse_file lim4 true hAccept (toL "[abcde]") = none ∧
    ini_parse_file lim4 true hAccept (toL "abcde=x") = none ∧
    ini_parse_file lim4 true hAccept (toL "a=vvvvv") = none ∧
    ini_parse_file lim8 true hAccept (toL "[abcde]") = some ([], 0) ∧
    ini_parse_file lim8 true hAccept (toL "abcde=x") =
      some ([([], toL "abcde", ['x'])], 0) :=
  ⟨by rfl, by rfl, by rfl, by rfl, by rfl, by rfl, by rfl, by rfl⟩

/-- Claim C3: the cache entry is inserted only when `ini_parse_file`
returned 0; on that path the first call reads the disk once and inserts,
and the second call is served from the cache with no disk read. -/
theorem claim_C3_cache_insert :
    ∀ (lim : IniLimits) (ml : Bool) (handler : IniHandler)
      (disk : List Char → Option (List Char)) (cache : IniCache)
      (fname data : List Char) (evs : List IniEvent),
      ini_cache_fetch cache fname = none →
      disk fname = some data →
      ini_parse_file lim ml handler data = some (evs, 0) →
      ini_parse lim ml handler disk cache fname =
        some (0, evs, (fname, data) :: cache, 1) ∧
      ini_parse lim ml handler disk ((fname, data) :: cache) fname =
        some (0, evs, (fname, data) :: cache, 0) := by
  intro lim ml handler disk cache fname data evs hfetch hdisk hparse
  constructor
  · unfold ini_parse
    rw [hfetch]
    dsimp only
    rw [hdisk]
    dsimp only
    rw [hparse]
    dsimp only [Option.map]
    rw [if_pos rfl]
  · unfold ini_parse
    have hfetch2 : ini_cache_fetch ((fname, data) :: cache) fname = some data := by
      simp [ini_cache_fetch]
    rw [hfetch2]
    dsimp only
    rw [hparse]
    dsimp only [Option.map]
    rfl

theorem claim_C3_witness :
    ini_parse lim8 true hAccept diskGood [] (toL "f") =
      some (0, [([], ['k'], ['v'])], [(toL "f", toL "k=v")], 1) ∧
    ini_parse lim8 true hAccept diskGood [(toL "f", toL "k=v")] (toL "f") =
      some (0, [([], ['k'], ['v'])], [(toL "f", toL "k=v")], 0) :=
  claim_C3_cache_insert lim8 true hAccept diskGood [] (toL "f") (toL "k=v")
    [([], ['k'], ['v'])] (by rfl) (by rfl) (by rfl)

theorem claim_C3_counterexample :
    ini_parse_file lim8 true hAccept (toL "bad") = some ([], 1) ∧
    ini_parse lim8 true hAccept diskBad [] (toL "f") = some (1, [], [], 1) :=
  ⟨by rfl, by rfl⟩

theorem dropWhile_head_false (p : Char → Bool) :
    ∀ (l : List Char) (c : Char) (t : List Char), l.dropWhile p = c :: t → p c = false := by
  intro l
  induction l with
  | nil =>
    intro c t h
    simp [List.dropWhile] at h
  | cons a as ih =>
    intro c t h
    by_cases hp : p a = true
    · rw [List.dropWhile_cons_of_pos hp] at h
      exact ih c t h
    · rw [List.dropWhile_cons_of_neg hp] at h
      injection h with h1 _
      subst h1
      simpa using hp

theorem dropWhile_idem (p : Char → Bool) (l : List Char) :
    (l.dropWhile p).dropWhile p = l.dropWhile p := by
  cases hd : l.dropWhile p with
  | nil => rfl
  | cons c t =>
    rw [List.dropWhile_cons_of_neg]
    simp [dropWhile_head_false p l c t hd]

theorem mem_lskip {a : Char} {s : List Char} (h : a ∈ lskip s) : a ∈ s :=
  (List.dropWhile_sublist _).subset h

theorem mem_rstrip {a : Char} {s : List Char} (h : a ∈ rstrip s) : a ∈ s := by
  unfold rstrip at h
  rw [List.mem_reverse] at h
  have h2 := (List.dropWhile_sublist _).subset h
  rwa [List.mem_reverse] at h2

theorem rstrip_append_nonspace (xs : List Char) (y : Char) (v : List Char)
    (hy : isSpc y = false) : rstrip (xs ++ y :: v) = xs ++ y :: rstrip v := by
  unfold rstrip
  have h1 : (xs ++ y :: v).reverse = v.reverse ++ [y] ++ xs.reverse := by
    simp
  rw [h1, List.dropWhile_append, List.dropWhile_append]
  have hdy : List.dropWhile isSpc [y] = [y] := by
    simp [List.dropWhile, hy]
  by_cases hv0 : (List.dropWhile isSpc v.reverse).isEmpty
  · have hnil : List.dropWhile isSpc v.reverse = [] := by
      simpa [List.isEmpty_iff] using hv0
    rw [if_pos hv0, hdy, hnil]
    simp
  · have hne : List.dropWhile isSpc v.reverse ≠ [] := by
      simpa [List.isEmpty_iff] using hv0
    rw [if_neg hv0]
    rw [if_neg (by simp [List.isEmpty_iff, hne])]
    simp

theorem lskip_append_nonspace (xs : List Char) (y : Char) (v : List Char)
    (hy : isSpc y = false) : lskip (xs ++ y :: v) = lskip xs ++ y :: v := by
  unfold lskip
  rw [List.dropWhile_append]
  by_cases h0 : (xs.dropWhile isSpc).isEmpty
  · have hnil : xs.dropWhile isSpc = [] := by simpa [List.isEmpty_iff] using h0
    rw [if_pos h0, hnil, List.nil_append]
    exact List.dropWhile_cons_of_neg (by simp [hy])
  · rw [if_neg h0]

theorem rstrip_rstrip (s : List Char) : rstrip (rstrip s) = rstrip s := by
  unfold rstrip
  rw [List.reverse_reverse, dropWhile_idem]

theorem lskip_all_space {s : List Char} (h : ∀ a ∈ s, isSpc a = true) : lskip s = [] := by
  unfold lskip
  exact List.dropWhile_eq_nil_iff.mpr h

theorem rstrip_all_space {s : List Char} (h : ∀ a ∈ s, isSpc a = true) : rstrip s = [] := by
  unfold rstrip
  rw [List.dropWhile_eq_nil_iff.mpr (fun a ha => h a (List.mem_reverse.mp ha))]
  rfl

theorem rstrip_lskip_rstrip (v : List Char) :
    rstrip (lskip (rstrip v)) = rstrip (lskip v) := by
  cases hw : lskip v with
  | nil =>
    have hall : ∀ a ∈ v, isSpc a = true := by
      unfold lskip at hw
      exact List.dropWhile_eq_nil_iff.mp hw
    rw [rstrip_all_space hall]
    rfl
  | cons h w =>
    have hh : isSpc h = false := by
      unfold lskip at hw
      exact dropWhile_head_false isSpc v h w hw
    have hsplit : v.takeWhile isSpc ++ h :: w = v := by
      rw [← hw]
      exact List.takeWhile_append_dropWhile isSpc v
    have hall : ∀ a ∈ v.takeWhile isSpc, isSpc a = true := fun a ha =>
      List.mem_takeWhile_imp ha
    calc rstrip (lskip (rstrip v))
        = rstrip (lskip (rstrip (v.takeWhile isSpc ++ h :: w))) := by rw [hsplit]
      _ = rstrip (lskip (v.takeWhile isSpc ++ h :: rstrip w)) := by
            rw [rstrip_append_nonspace _ _ _ hh]
      _ = rstrip (lskip (v.takeWhile isSpc) ++ h :: rstrip w) := by
            rw [lskip_append_nonspace _ _ _ hh]
      _ = rstrip (h :: rstrip w) := by rw [lskip_all_space hall, List.nil_append]
      _ = h :: rstrip (rstrip w) := by
            have := rstrip_append_nonspace [] h (rstrip w) hh
            simpa using this
      _ = h :: rstrip w := by rw [rstrip_rstrip]
      _ = rstrip (h :: w) := by
            have := rstrip_append_nonspace [] h w hh
            simp at this
            rw [this]

theorem find_coc_none (c : Char) :
    ∀ (xs : List Char) (ws : Bool),
      (∀ a ∈ xs, a ≠ c ∧ a ≠ ';' ∧ a ≠ '#') →
      find_char_or_comment c ws xs = (xs, []) := by
  intro xs
  induction xs with
  | nil =>
    intro ws _
    rfl
  | cons x r ih =>
    intro ws h
    have hx := h x (by simp)
    show (if x = c then ([], x :: r)
      else if ws && (x = ';' || x = '#') then ([], x :: r)
      else
        ((x :: (find_char_or_comment c (isSpc x) r).1,
          (find_char_or_comment c (isSpc x) r).2) : List Char × List Char)) = (x :: r, [])
    rw [if_neg hx.1, if_neg (by simp [hx.2.1, hx.2.2])]
    rw [ih (isSpc x) (fun a ha => h a (by simp [ha]))]

theorem find_coc_through (c : Char) :
    ∀ (xs rest : List Char) (ws : Bool),
      (∀ a ∈ xs, a ≠ c ∧ a ≠ ';' ∧ a ≠ '#') →
      find_char_or_comment c ws (xs ++ c :: rest) = (xs, c :: rest) := by
  intro xs
  induction xs with
  | nil =>
    intro rest ws _
    show (if c = c then (([], c :: rest) : List Char × List Char) else _) = ([], c :: rest)
    rw [if_pos rfl]
  | cons x r ih =>
    intro rest ws h
    have hx := h x (by simp)
    show (if x = c then ([], x :: (r ++ c :: rest))
      else if ws && (x = ';' || x = '#') then ([], x :: (r ++ c :: rest))
      else
        ((x :: (find_char_or_comment c (isSpc x) (r ++ c :: rest)).1,
          (find_char_or_comment c (isSpc x) (r ++ c :: rest)).2) :
            List Char × List Char)) = (x :: r, c :: rest)
    rw [if_neg hx.1, if_neg (by simp [hx.2.1, hx.2.2])]
    rw [ih rest (isSpc x) (fun a ha => h a (by simp [ha]))]

/-- Claim C9: round-trip of a property line `n ++ sep :: v` free of comment
markers and stray separators: the delivered pair is exactly the trimmed left
side and the trimmed right side of the separator. -/
theorem claim_C9_roundtrip :
    ∀ (lim : IniLimits) (ml : Bool) (handler : IniHandler) (sp : IniSP)
      (n : List Char) (sep : Char) (v : List Char),
      (sep = '=' ∨ sep = ':') →
      sp.prev = [] →
      (n ++ sep :: v).length ≤ 4999 →
      (∀ a ∈ n, a ≠ '=' ∧ a ≠ ';' ∧ a ≠ '#' ∧ (sep = ':' → a ≠ ':')) →
      (lskip n).head? ≠ some '[' →
      (∀ a ∈ v, a ≠ ';' ∧ a ≠ '#' ∧ a ≠ '\x00' ∧ (sep = ':' → a ≠ '=')) →
      ¬(lim.maxName < (rstrip (lskip n)).length) →
      ¬(lim.maxValue < (rstrip (lskip v)).length) →
      (ini_process_line lim ml handler sp (n ++ sep :: v)).2.1 =
        [(sp.sec, rstrip (lskip n), rstrip (lskip v))] := by
  intro lim ml handler sp n sep v hsep hprev hlen hn hbr hv hName hVal
  have hsepns : isSpc sep = false := by
    rcases hsep with rfl | rfl <;> rfl
  have hsepchar : sep ≠ ';' ∧ sep ≠ '#' ∧ sep ≠ '[' := by
    rcases hsep with rfl | rfl <;> exact ⟨by decide, by decide, by decide⟩
  have htake : (n ++ sep :: v).take 4999 = n ++ sep :: v :=
    List.take_of_length_le hlen
  have hstr : lskip (rstrip (n ++ sep :: v)) = lskip n ++ sep :: rstrip v := by
    rw [rstrip_append_nonspace _ _ _ hsepns, lskip_append_nonspace _ _ _ hsepns]
  obtain ⟨c, s1, hcs, hc⟩ :
      ∃ c s1, lskip n ++ sep :: rstrip v = c :: s1 ∧ (c ≠ ';' ∧ c ≠ '#' ∧ c ≠ '[') := by
    cases hls : lskip n with
    | nil => exact ⟨sep, rstrip v, by simp, hsepchar⟩
    | cons c0 t0 =>
      have hc0 : c0 ∈ n := mem_lskip (by rw [hls]; exact List.mem_cons_self _ _)
      have hprops := hn c0 hc0
      have hc0br : c0 ≠ '[' := by
        intro hEq
        apply hbr
        rw [hls, hEq]
        rfl
      exact ⟨c0, t0 ++ sep :: rstrip v, by simp, hprops.2.1, hprops.2.2.1, hc0br⟩
  have hf1 : sep = '=' →
      find_char_or_comment '=' false (c :: s1) = (lskip n, '=' :: rstrip v) := by
    intro hEq
    subst hEq
    rw [← hcs]
    exact find_coc_through '=' (lskip n) (rstrip v) false
      (fun a ha =>
        have h2 := hn a (mem_lskip ha)
        ⟨h2.1, h2.2.1, h2.2.2.1⟩)
  have hfeq : sep = ':' →
      find_char_or_comment '=' false (c :: s1) = (c :: s1, []) := by
    intro hEq
    subst hEq
    rw [← hcs]
    apply find_coc_none
    intro a ha
    rcases List.mem_append.1 ha with ha | ha
    · have h2 := hn a (mem_lskip ha)
      exact ⟨h2.1, h2.2.1, h2.2.2.1⟩
    · rcases List.mem_cons.1 ha with rfl | ha
      · exact ⟨by decide, by decide, by decide⟩
      · have h2 := hv a (mem_rstrip ha)
        exact ⟨h2.2.2.2 rfl, h2.1, h2.2.1⟩
  have hfcol : sep = ':' →
      find_char_or_comment ':' false (c :: s1) = (lskip n, ':' :: rstrip v) := by
    intro hEq
    subst hEq
    rw [← hcs]
    exact find_coc_through ':' (lskip n) (rstrip v) false
      (fun a ha =>
        have h2 := hn a (mem_lskip ha)
        ⟨h2.2.2.2 rfl, h2.2.1, h2.2.2.1⟩)
  have hf0 : find_char_or_comment '\x00' false (lskip (rstrip v)) =
      (lskip (rstrip v), []) := by
    apply find_coc_none
    intro a ha
    have h2 := hv a (mem_rstrip (mem_lskip ha))
    exact ⟨h2.2.2.1, h2.1, h2.2.1⟩
  have hss : (match (find_char_or_comment '=' false (c :: s1)).2 with
      | '=' :: rest => some ((find_char_or_comment '=' false (c :: s1)).1, rest)
      | _ =>
        match (find_char_or_comment ':' false (c :: s1)).2 with
        | ':' :: rest => some ((find_char_or_comment ':' false (c :: s1)).1, rest)
        | _ => none) = some (lskip n, rstrip v) := by
    rcases hsep with h | h
    · rw [hf1 h]
      rfl
    · rw [hfeq h, hfcol h]
      rfl
  unfold ini_process_line
  dsimp only
  rw [htake, hstr, hcs]
  dsimp only
  rw [if_neg (by simp [hc.1, hc.2.1])]
  rw [if_neg (by simp [hprev])]
  rw [if_neg hc.2.2]
  rw [if_pos (by simp [hc.1])]
  rw [hss]
  dsimp only
  rw [hf0]
  dsimp only
  rw [rstrip_lskip_rstrip]
  rw [if_neg (by simp [hName, hVal])]

theorem claim_C9_witness :
    (ini_process_line lim8 true hAccept ⟨[], []⟩ (toL " a = 1 ")).2.1 =
      [([], ['a'], ['1'])] := by
  have h := claim_C9_roundtrip lim8 true hAccept ⟨[], []⟩ (toL " a ") '=' (toL " 1 ")
    (Or.inl rfl) rfl (by decide) (by decide) (by decide) (by decide)
    (by decide) (by decide)
  exact h
